import Mathlib

/-!
Verification of the asynchronous TCP server core (src/lib/as_server.h,
src/src/async_server.c): the circular I/O buffer, the pollfd readiness
registry, and the accept/disconnect/poll connection lifecycle, as a shallow
embedding in Lean. size_t arithmetic is modelled on Nat with an explicit
modulus 2 ^ 64 wherever the source can wrap.
-/

namespace AsyncServer

/-- Modulus of 64-bit size_t arithmetic. -/
def W : Nat := 2 ^ 64

/-- Value of the C expression a - b on size_t operands (unsigned wraparound
subtraction), for a, b < W; for a ≥ b it also agrees with plain subtraction of
arbitrarily large cursors, which is how the monotone cursor model uses it. -/
def usubW (a b : Nat) : Nat := (a + W - b) % W

theorem usubW_of_le {a b : Nat} (h : b ≤ a) (hlt : a - b < W) : usubW a b = a - b := by
  unfold usubW W at *
  omega

/-- Bit-smearing steps of size_roundup (src/src/async_server.c lines 69-74):
or together the input with its right shifts by 1, 2, 4, 8, 16 and 32. -/
def smear64 (n : Nat) : Nat :=
  let n1 := n ||| (n >>> 1)
  let n2 := n1 ||| (n1 >>> 2)
  let n3 := n2 ||| (n2 >>> 4)
  let n4 := n3 ||| (n3 >>> 8)
  let n5 := n4 ||| (n4 >>> 16)
  n5 ||| (n5 >>> 32)

/-- size_roundup from src/src/async_server.c lines 63-79: leave the size alone
when it is zero or already a power of two (the mask test), otherwise smear the
bits below the top set bit and increment; the increment is a size_t increment,
hence the modulus. -/
def size_roundup (size : Nat) : Nat :=
  if size &&& (size - 1) ≠ 0 then (smear64 size + 1) % W else size

theorem smear_step {n a c : Nat}
    (h : ∀ i, a.testBit i = true ↔ ∃ d, d ≤ c ∧ n.testBit (i + d) = true) :
    ∀ i, (a ||| (a >>> (c + 1))).testBit i = true ↔
      ∃ d, d ≤ 2 * c + 1 ∧ n.testBit (i + d) = true := by
  intro i
  rw [Nat.testBit_or, Nat.testBit_shiftRight, Bool.or_eq_true, h, h]
  constructor
  · rintro (⟨d, hd, hb⟩ | ⟨d, hd, hb⟩)
    · exact ⟨d, by omega, hb⟩
    · refine ⟨c + 1 + d, by omega, ?_⟩
      have he : i + (c + 1 + d) = c + 1 + i + d := by omega
      rw [he]; exact hb
  · rintro ⟨d, hd, hb⟩
    by_cases hdc : d ≤ c
    · exact Or.inl ⟨d, hdc, hb⟩
    · refine Or.inr ⟨d - (c + 1), by omega, ?_⟩
      have he : c + 1 + i + (d - (c + 1)) = i + d := by omega
      rw [he]; exact hb

theorem smear64_testBit (n : Nat) :
    ∀ i, (smear64 n).testBit i = true ↔ ∃ d, d ≤ 63 ∧ n.testBit (i + d) = true := by
  have h0 : ∀ i, n.testBit i = true ↔ ∃ d, d ≤ 0 ∧ n.testBit (i + d) = true := by
    intro i
    constructor
    · intro h; exact ⟨0, Nat.le_refl 0, by simpa using h⟩
    · rintro ⟨d, hd, hb⟩
      have : d = 0 := Nat.le_zero.mp hd
      subst this; simpa using hb
  have h1 := smear_step h0
  have h2 := smear_step h1
  have h4 := smear_step h2
  have h8 := smear_step h4
  have h16 := smear_step h8
  have h32 := smear_step h16
  intro i
  simpa [smear64] using h32 i

theorem smear64_eq {n : Nat} (h0 : n ≠ 0) (h64 : n < 2 ^ 64) :
    smear64 n = 2 ^ (n.log2 + 1) - 1 := by
  have hk63 : n.log2 < 64 := (Nat.log2_lt h0).mpr h64
  have htop : n.testBit n.log2 = true := by
    rw [Nat.testBit_to_div_mod]
    have hle : 2 ^ n.log2 ≤ n := Nat.log2_self_le h0
    have hlt : n < 2 ^ (n.log2 + 1) := Nat.lt_log2_self
    have hdiv : n / 2 ^ n.log2 = 1 := by
      apply Nat.div_eq_of_lt_le
      · simpa using hle
      · have : 2 ^ (n.log2 + 1) = 2 * 2 ^ n.log2 := by ring
        omega
    simp [hdiv]
  apply Nat.eq_of_testBit_eq
  intro i
  rw [Nat.testBit_two_pow_sub_one]
  by_cases hi : i < n.log2 + 1
  · rw [show decide (i < n.log2 + 1) = true from by simp [hi]]
    refine (smear64_testBit n i).mpr ⟨n.log2 - i, by omega, ?_⟩
    have he : i + (n.log2 - i) = n.log2 := by omega
    rw [he]; exact htop
  · rw [show decide (i < n.log2 + 1) = false from by simp [hi]]
    by_contra hc
    have hc' : (smear64 n).testBit i = true := by
      cases hx : (smear64 n).testBit i
      · exact absurd hx hc
      · rfl
    obtain ⟨d, _, hb⟩ := (smear64_testBit n i).mp hc'
    have hge : 2 ^ (i + d) ≤ n := Nat.testBit_implies_ge hb
    have hlt : n < 2 ^ (n.log2 + 1) := Nat.lt_log2_self
    have hmono : 2 ^ (n.log2 + 1) ≤ 2 ^ (i + d) :=
      Nat.pow_le_pow_right (by omega) (by omega)
    omega

/-- A nonzero size_t value whose bits do not meet the bits of its predecessor
is a power of two (the mask test of size_roundup). -/
theorem pow2_of_and_pred : ∀ n, 0 < n → n &&& (n - 1) = 0 → ∃ k, n = 2 ^ k := by
  intro n
  induction n using Nat.strong_induction_on with
  | _ n ih =>
    intro h0 hand
    have hbit : ∀ i, n.testBit i = true → (n - 1).testBit i = false := by
      intro i hi
      by_contra hc
      have hc' : (n - 1).testBit i = true := by
        cases hx : (n - 1).testBit i
        · exact absurd hx hc
        · rfl
      have : (n &&& (n - 1)).testBit i = true := by
        rw [Nat.testBit_and, hi, hc']; rfl
      rw [hand, Nat.zero_testBit] at this
      exact Bool.false_ne_true this
    rcases Nat.even_or_odd n with he | ho
    · obtain ⟨m, hm⟩ := he
      have hm2 : n = 2 * m := by omega
      have hmpos : 0 < m := by omega
      have hma : m &&& (m - 1) = 0 := by
        apply Nat.eq_of_testBit_eq
        intro i
        rw [Nat.testBit_and, Nat.zero_testBit]
        have h1 : m.testBit i = n.testBit (i + 1) := by
          rw [Nat.testBit_add_one, hm2]
          congr 1
          omega
        have h2 : (m - 1).testBit i = (n - 1).testBit (i + 1) := by
          rw [Nat.testBit_add_one]
          congr 1
          omega
        cases hx : m.testBit i
        · rfl
        · have hx2 : n.testBit (i + 1) = true := by rw [← h1]; exact hx
          have := hbit (i + 1) hx2
          rw [h2, this]
          rfl
      obtain ⟨k, hk⟩ := ih m (by omega) hmpos hma
      exact ⟨k + 1, by rw [hm2, hk]; ring⟩
    · obtain ⟨m, hm⟩ := ho
      have hhigh : ∀ i, 1 ≤ i → n.testBit i = false := by
        intro i hi1
        obtain ⟨j, hj⟩ : ∃ j, i = j + 1 := ⟨i - 1, by omega⟩
        subst hj
        have h1 : n.testBit (j + 1) = (n - 1).testBit (j + 1) := by
          rw [Nat.testBit_add_one, Nat.testBit_add_one]
          congr 1
          omega
        cases hx : n.testBit (j + 1)
        · rfl
        · have hz := hbit (j + 1) hx
          rw [h1, hz] at hx
          exact absurd hx Bool.false_ne_true
      have : n < 2 ^ 1 := Nat.lt_pow_two_of_testBit n (fun i hi => hhigh i hi)
      exact ⟨0, by omega⟩

/-- size_roundup on any size_t-feasible request: the result is at least the
input, still feasible, and a power of two. -/
theorem size_roundup_spec (n : Nat) (h0 : 0 < n) (h : n ≤ 2 ^ 63) :
    n ≤ size_roundup n ∧ size_roundup n ≤ 2 ^ 63 ∧ ∃ k, size_roundup n = 2 ^ k := by
  unfold size_roundup
  by_cases hmask : n &&& (n - 1) ≠ 0
  · have hne : n ≠ 2 ^ 63 := by
      intro he
      apply hmask
      rw [he]
      have : (2 : Nat) ^ 63 &&& 2 ^ 63 - 1 = 2 ^ 63 % 2 ^ 63 := Nat.and_pow_two_sub_one_eq_mod _ 63
      simpa using this
    have hlt63 : n < 2 ^ 63 := by
      rcases Nat.lt_or_ge n (2 ^ 63) with h1 | h1
      · exact h1
      · exact absurd (Nat.le_antisymm h h1) hne
    have hlog : n.log2 < 63 := (Nat.log2_lt (by omega)).mpr hlt63
    have hsm : smear64 n = 2 ^ (n.log2 + 1) - 1 := by
      apply smear64_eq (by omega)
      have : (2 : Nat) ^ 63 < 2 ^ 64 := by norm_num
      omega
    have hpow : 2 ^ (n.log2 + 1) ≤ 2 ^ 63 := Nat.pow_le_pow_right (by omega) (by omega)
    have hmod : (smear64 n + 1) % W = 2 ^ (n.log2 + 1) := by
      rw [hsm]
      have h1 : 2 ^ (n.log2 + 1) - 1 + 1 = 2 ^ (n.log2 + 1) := by
        have : (0 : Nat) < 2 ^ (n.log2 + 1) := Nat.pos_pow_of_pos _ (by omega)
        omega
      rw [h1]
      apply Nat.mod_eq_of_lt
      unfold W
      have : (2 : Nat) ^ 63 < 2 ^ 64 := by norm_num
      omega
    rw [if_pos hmask, hmod]
    refine ⟨?_, by omega, ⟨n.log2 + 1, rfl⟩⟩
    have : n < 2 ^ (n.log2 + 1) := Nat.lt_log2_self
    omega
  · rw [if_neg hmask]
    push_neg at hmask
    exact ⟨Nat.le_refl n, h, pow2_of_and_pred n h0 hmask⟩

/-- Circular I/O buffer, struct io_buffer of src/lib/as_server.h. The backing
char array is a total function from physical index to byte value; indices at or
beyond size stand for memory outside the allocation, so a read there models an
out-of-bounds read of the C program. head and tail are the monotonically
increasing size_t write and read cursors; they are modelled as unbounded
naturals, since wrapping one requires pushing 2 ^ 64 bytes through a single
buffer. -/
structure IOBuffer where
  store : Nat → Nat
  size : Nat
  head : Nat
  tail : Nat

/-- iobuff_alloc from src/src/async_server.c lines 273-291: calloc zeroes the
storage and both cursors start at zero. -/
def iobuff_alloc (size : Nat) : IOBuffer :=
  { store := fun _ => 0, size := size, head := 0, tail := 0 }

/-- iobuff_empty from src/lib/as_server.h line 215. -/
def iobuff_empty (b : IOBuffer) : Bool := b.head == b.tail

/-- iobuff_full from src/lib/as_server.h line 223: (head - tail) == size in
size_t arithmetic. -/
def iobuff_full (b : IOBuffer) : Bool := usubW b.head b.tail == b.size

/-- iobuff_space from src/lib/as_server.h lines 231-234: the branchy free-space
formula (head >= tail) ? size - (head - tail) : tail - head, evaluated in
size_t arithmetic. The conversion of the size_t expression to the declared int
return type is not modelled; the theorems speak about the size_t value. -/
def iobuff_space (size head tail : Nat) : Nat :=
  if head ≥ tail then usubW size (usubW head tail) else usubW tail head

/-- Pending (appended but not yet drained) bytes of a buffer in append order:
the head - tail bytes starting at physical index tail & (size - 1). This is
the read-back sequence the spec refers to, i.e. what a correct drain would
hand to the transport. -/
def pendingBytes (b : IOBuffer) : List Nat :=
  (List.range (b.head - b.tail)).map (fun k => b.store ((b.tail + k) &&& (b.size - 1)))

/-- memcpy of n bytes from data (starting at offset src) into the store
starting at physical index dst. Bytes the C would read past the end of the
source array are modelled as 0. -/
def memcpy_chunk (store : Nat → Nat) (dst : Nat) (data : List Nat) (src n : Nat) :
    Nat → Nat :=
  fun i => if dst ≤ i ∧ i < dst + n then data.getD (src + (i - dst)) 0 else store i

/-- Masked two-chunk copy, the lower half of iobuff_append
(src/src/async_server.c lines 329-355). -/
def iobuff_append_copy (b1 : IOBuffer) (data : List Nat) (length : Nat) :
    IOBuffer × Nat :=
  let whead := b1.head &&& (b1.size - 1)
  let wtail := b1.tail &&& (b1.size - 1)
  if wtail ≤ whead then
    let first_chunk := min length (b1.size - whead)
    let second_chunk := min (length - first_chunk) wtail
    let total := first_chunk + second_chunk
    let st1 := memcpy_chunk b1.store whead data 0 first_chunk
    let st2 := memcpy_chunk st1 0 data first_chunk second_chunk
    ({ b1 with store := st2, head := b1.head + total }, total)
  else
    let chunk := min length (wtail - whead)
    let st := memcpy_chunk b1.store whead data 0 chunk
    ({ b1 with store := st, head := b1.head + chunk }, chunk)

/-- iobuff_append from src/src/async_server.c lines 294-355. The reallocation
branch models a successful realloc: the backing bytes are moved verbatim to the
new storage with no re-linearization of a wrapped tail..head range (a bare
resize), exactly as the source does. A failed realloc returns 0 with the
buffer untouched and is not modelled, since no claim depends on it. The sum
size + length is a size_t sum, hence the modulus. -/
def iobuff_append (b : IOBuffer) (data : List Nat) (length : Nat)
    (can_reallocate : Bool) : IOBuffer × Nat :=
  if length = 0 ∨ iobuff_full b then (b, 0) else
  let free_space := iobuff_space b.size b.head b.tail
  if free_space < length ∧ can_reallocate = true then
    iobuff_append_copy { b with size := size_roundup ((b.size + length) % W) } data length
  else
    iobuff_append_copy b data length

/-- Byte sequence handed to the send(2) primitive by iobuff_send
(src/src/async_server.c lines 367-422). The source linearizes into a zeroed
scratch buffer only when tail > head on the raw size_t cursors; otherwise it
passes length bytes starting at the raw masked tail offset with no wraparound,
so indices past size - 1 stand for the out-of-bounds reads the C performs
there. -/
def iobuff_sendBytes (b : IOBuffer) : List Nat :=
  let length := usubW b.head b.tail
  let whead := b.head &&& (b.size - 1)
  let wtail := b.tail &&& (b.size - 1)
  if b.tail > b.head then
    let tail_size := b.size - wtail
    let wrap := fun i =>
      if i < tail_size then b.store (wtail + i)
      else if i < tail_size + whead then b.store (i - tail_size) else 0
    (List.range length).map wrap
  else
    (List.range length).map (fun k => b.store (wtail + k))

/-- Cursor effect and return value of iobuff_send, given the value ret the
send primitive returned (-1 for failure, otherwise the count of bytes it
accepted, never more than the length it was handed). On success the source
advances tail by exactly ret. -/
def iobuff_send (b : IOBuffer) (ret : Int) : IOBuffer × Int :=
  if usubW b.head b.tail = 0 then (b, 0)
  else if ret < 0 then (b, -1)
  else ({ b with tail := b.tail + ret.toNat }, ret)

theorem mod_two_cases {a C : Nat} (_hC : 0 < C) (h : a < C + C) :
    (a < C ∧ a % C = a) ∨ (C ≤ a ∧ a % C + C = a) := by
  rcases Nat.lt_or_ge a C with h1 | h1
  · exact Or.inl ⟨h1, Nat.mod_eq_of_lt h1⟩
  · refine Or.inr ⟨h1, ?_⟩
    rw [Nat.mod_eq_sub_mod h1, Nat.mod_eq_of_lt (by omega)]
    omega

theorem iobuff_space_eq {size head tail : Nat} (h1 : tail ≤ head)
    (h2 : head - tail ≤ size) (h3 : size < W) :
    iobuff_space size head tail = size - (head - tail) := by
  unfold iobuff_space
  rw [if_pos h1, usubW_of_le h1 (by omega), usubW_of_le h2 (by omega)]

theorem mask_mod {C : Nat} (k : Nat) (hC : C = 2 ^ k) (x : Nat) :
    x &&& (C - 1) = x % C := by
  subst hC
  exact Nat.and_pow_two_sub_one_eq_mod x k

/-- Behaviour of the masked two-chunk copy on a buffer with ordered cursors,
a strictly non-full pending range and a power-of-two capacity: it writes
min length free bytes, advances head by exactly that count, and appends
exactly the next bytes of the input after the pending bytes of its input
buffer (pending bytes read under the same capacity it was handed). -/
theorem iobuff_append_copy_spec (b1 : IOBuffer) (data : List Nat) (length : Nat)
    (hTH : b1.tail ≤ b1.head) (hd : b1.head - b1.tail < b1.size)
    (hpow : ∃ k, b1.size = 2 ^ k) :
    (iobuff_append_copy b1 data length).1.size = b1.size ∧
    (iobuff_append_copy b1 data length).1.tail = b1.tail ∧
    (iobuff_append_copy b1 data length).1.head
      = b1.head + (iobuff_append_copy b1 data length).2 ∧
    (iobuff_append_copy b1 data length).2
      = min length (b1.size - (b1.head - b1.tail)) ∧
    (length ≤ data.length →
      pendingBytes (iobuff_append_copy b1 data length).1
        = pendingBytes b1 ++ data.take (iobuff_append_copy b1 data length).2) := by
  obtain ⟨k, hk⟩ := hpow
  have hC0 : 0 < b1.size := by rw [hk]; exact Nat.pos_pow_of_pos k (by omega)
  have hmask := mask_mod k hk
  set C := b1.size with hCdef
  set dd := b1.head - b1.tail with hddef
  have hdC : dd < C := hd
  have hheadd : b1.head = b1.tail + dd := by omega
  simp only [iobuff_append_copy, pendingBytes, hmask]
  set T := b1.tail % C with hTdef
  set H := b1.head % C with hHdef
  have hTC : T < C := Nat.mod_lt _ hC0
  have hHC : H < C := Nat.mod_lt _ hC0
  have hHTd : H = (T + dd) % C := by
    rw [hHdef, hheadd, Nat.add_mod, Nat.mod_eq_of_lt hdC]
  have hphysRange : ∀ i : Nat, i < C → (b1.tail + i) % C = (T + i) % C := by
    intro i hi
    rw [Nat.add_mod, Nat.mod_eq_of_lt hi]
  by_cases hcase : T ≤ H
  · -- unwrapped physical range: tail offset at or before head offset
    rw [if_pos hcase]
    have hA : T + dd < C ∧ H = T + dd := by
      rcases mod_two_cases hC0 (show T + dd < C + C by omega) with ⟨h1, h2⟩ | ⟨h1, h2⟩
      · rw [hHTd] at *; exact ⟨h1, h2⟩
      · exfalso
        have hw : H + C = T + dd := by rw [hHTd]; exact h2
        omega
    obtain ⟨hTdC, hHeq⟩ := hA
    set fc := min length (C - H) with hfc
    set sc := min (length - fc) T with hsc
    have hfcH : fc + H ≤ C := by omega
    have hscT : sc ≤ T := by omega
    have htot : fc + sc = min length (C - dd) := by omega
    refine ⟨rfl, rfl, rfl, htot, ?_⟩
    intro hlen
    have htot2 : fc + sc ≤ C - dd := by omega
    have htotlen : fc + sc ≤ length := by omega
    apply List.ext_getElem
    · simp only [List.length_map, List.length_range, List.length_append,
        List.length_take]
      omega
    · intro i h1 h2
      simp only [List.length_map, List.length_range] at h1
      simp only [List.getElem_map, List.getElem_range, hmask]
      have hiC : i < C := by omega
      rw [hphysRange i hiC]
      by_cases hi : i < dd
      · -- old pending bytes are untouched by the two copies
        have hlt : T + i < C := by omega
        have hphys : (T + i) % C = T + i := Nat.mod_eq_of_lt hlt
        rw [hphys]
        rw [List.getElem_append_left (by simp [List.length_map, List.length_range]; omega)]
        simp only [List.getElem_map, List.getElem_range, hmask]
        rw [hphysRange i hiC, hphys]
        simp only [memcpy_chunk]
        rw [if_neg (by omega), if_neg (by omega)]
      · -- freshly copied bytes land in append order
        have hj : i - dd < fc + sc := by omega
        have hphys0 : T + i = H + (i - dd) := by omega
        rw [List.getElem_append_right (by simp [List.length_map, List.length_range]; omega)]
        simp only [List.getElem_take, List.length_map, List.length_range]
        by_cases hjf : i - dd < fc
        · have hlt : H + (i - dd) < C := by omega
          have hphys : (T + i) % C = H + (i - dd) := by
            rw [hphys0]; exact Nat.mod_eq_of_lt hlt
          rw [hphys]
          simp only [memcpy_chunk]
          rw [if_neg (by omega), if_pos (by omega)]
          rw [List.getD_eq_getElem _ _ (by omega)]
          congr 1
          omega
        · have hfcC : fc = C - H := by omega
          have hwrap : C ≤ H + (i - dd) := by omega
          have hlt2 : H + (i - dd) < C + sc := by omega
          have hphys : (T + i) % C = i - dd - fc := by
            rw [hphys0]
            rcases mod_two_cases hC0 (show H + (i - dd) < C + C by omega) with
              ⟨hq, _⟩ | ⟨_, hq⟩
            · omega
            · omega
          rw [hphys]
          simp only [memcpy_chunk]
          rw [if_pos (by omega)]
          rw [List.getD_eq_getElem _ _ (by omega)]
          congr 1
          omega
  · -- wrapped physical range: head offset strictly before tail offset
    rw [if_neg hcase]
    have hB : C ≤ T + dd ∧ H + C = T + dd := by
      rcases mod_two_cases hC0 (show T + dd < C + C by omega) with ⟨h1, h2⟩ | ⟨h1, h2⟩
      · exfalso
        have hw : H = T + dd := by rw [hHTd]; exact h2
        omega
      · constructor
        · exact h1
        · rw [hHTd]; exact h2
    obtain ⟨hBle, hBeq⟩ := hB
    set ck := min length (T - H) with hck
    have hckTH : ck ≤ T - H := by omega
    have htot : ck = min length (C - dd) := by omega
    refine ⟨rfl, rfl, rfl, htot, ?_⟩
    intro hlen
    have htot2 : ck ≤ C - dd := by omega
    have htotlen : ck ≤ length := by omega
    apply List.ext_getElem
    · simp only [List.length_map, List.length_range, List.length_append,
        List.length_take]
      omega
    · intro i h1 h2
      simp only [List.length_map, List.length_range] at h1
      simp only [List.getElem_map, List.getElem_range, hmask]
      have hiC : i < C := by omega
      rw [hphysRange i hiC]
      by_cases hi : i < dd
      · -- old pending bytes sit in [T, C) and [0, H); the copy writes [H, H + ck)
        rw [List.getElem_append_left (by simp [List.length_map, List.length_range]; omega)]
        simp only [List.getElem_map, List.getElem_range, hmask]
        rw [hphysRange i hiC]
        rcases mod_two_cases hC0 (show T + i < C + C by omega) with ⟨hq, hq2⟩ | ⟨hq, hq2⟩
        · rw [hq2]
          simp only [memcpy_chunk]
          rw [if_neg (by omega)]
        · have hphys : (T + i) % C = T + i - C := by omega
          rw [hphys]
          simp only [memcpy_chunk]
          rw [if_neg (by omega)]
      · have hj : i - dd < ck := by omega
        have hphys0 : T + i = H + (i - dd) + C := by omega
        have hlt : H + (i - dd) < C := by omega
        have hphys : (T + i) % C = H + (i - dd) := by
          rw [hphys0, Nat.add_mod_right]
          exact Nat.mod_eq_of_lt hlt
        rw [hphys]
        rw [List.getElem_append_right (by simp [List.length_map, List.length_range]; omega)]
        simp only [List.getElem_take, List.length_map, List.length_range]
        simp only [memcpy_chunk]
        rw [if_pos (by omega)]
        rw [List.getD_eq_getElem _ _ (by omega)]
        congr 1
        omega

example : (iobuff_append (iobuff_alloc 8) [1, 2, 3] 3 false).2 = 3 := by decide

example : pendingBytes (iobuff_append (iobuff_alloc 8) [1, 2, 3] 3 false).1 = [1, 2, 3] := by
  decide

/-- Invariant of every reachable buffer: ordered cursors, at most size pending
bytes, and a power-of-two capacity representable as a size_t allocation. -/
def BufInv (b : IOBuffer) : Prop :=
  b.tail ≤ b.head ∧ b.head - b.tail ≤ b.size ∧ (∃ k, b.size = 2 ^ k) ∧ b.size ≤ 2 ^ 63

theorem w_large : 2 ^ 63 < W := by norm_num [W]

theorem iobuff_full_iff {b : IOBuffer} (hInv : BufInv b) :
    iobuff_full b = true ↔ b.head - b.tail = b.size := by
  obtain ⟨h1, h2, _, h4⟩ := hInv
  have hW := w_large
  unfold iobuff_full
  rw [usubW_of_le h1 (by omega)]
  simp

theorem iobuff_append_inv (b : IOBuffer) (data : List Nat) (length : Nat) (r : Bool)
    (hInv : BufInv b) (hfeas : b.size + length ≤ 2 ^ 63) :
    BufInv (iobuff_append b data length r).1 := by
  obtain ⟨h1, h2, hpow, h4⟩ := hInv
  have hW := w_large
  unfold iobuff_append
  by_cases h0 : length = 0 ∨ iobuff_full b = true
  · rw [if_pos h0]
    exact ⟨h1, h2, hpow, h4⟩
  · rw [if_neg h0]
    push_neg at h0
    have hd : b.head - b.tail < b.size := by
      rcases Nat.lt_or_ge (b.head - b.tail) b.size with h | h
      · exact h
      · exfalso
        exact h0.2 ((iobuff_full_iff ⟨h1, h2, hpow, h4⟩).mpr (by omega))
    by_cases hre : iobuff_space b.size b.head b.tail < length ∧ r = true
    · rw [if_pos hre]
      have hmod : (b.size + length) % W = b.size + length := Nat.mod_eq_of_lt (by omega)
      have hrs := size_roundup_spec (b.size + length) (by omega) hfeas
      rw [hmod]
      set b1 : IOBuffer := { b with size := size_roundup (b.size + length) } with hb1
      have hb1s : b1.size = size_roundup (b.size + length) := rfl
      have hb1h : b1.head = b.head := rfl
      have hb1t : b1.tail = b.tail := rfl
      have hcs := iobuff_append_copy_spec b1 data length (by rw [hb1h, hb1t]; exact h1) (by
        rw [hb1h, hb1t, hb1s]
        omega) (by rw [hb1s]; exact hrs.2.2)
      obtain ⟨hs, ht, hh, htot, _⟩ := hcs
      rw [hb1s] at hs
      rw [hb1t] at ht
      rw [hb1h] at hh
      rw [hb1s, hb1h, hb1t] at htot
      refine ⟨?_, ?_, ?_, ?_⟩
      · rw [ht, hh]; omega
      · rw [hs, ht, hh]; omega
      · rw [hs]; exact hrs.2.2
      · rw [hs]; exact hrs.2.1
    · rw [if_neg hre]
      have hcs := iobuff_append_copy_spec b data length h1 hd hpow
      obtain ⟨hs, ht, hh, htot, _⟩ := hcs
      refine ⟨?_, ?_, ?_, ?_⟩
      · rw [ht, hh]; omega
      · rw [hs, ht, hh]; omega
      · rw [hs]; exact hpow
      · rw [hs]; exact h4

theorem iobuff_send_inv (b : IOBuffer) (ret : Int)
    (hInv : BufInv b) (hret : ret.toNat ≤ b.head - b.tail) :
    BufInv (iobuff_send b ret).1 := by
  obtain ⟨h1, h2, hpow, h4⟩ := hInv
  unfold iobuff_send
  split_ifs
  · exact ⟨h1, h2, hpow, h4⟩
  · exact ⟨h1, h2, hpow, h4⟩
  · refine ⟨?_, ?_, hpow, h4⟩
    · show b.tail + ret.toNat ≤ b.head
      omega
    · show b.head - (b.tail + ret.toNat) ≤ b.size
      omega

/-- Buffer states reachable by allocating a power-of-two capacity buffer and
then performing any sequence of appends and drains. The append side condition
says the size_t request size + length stays within the allocatable range (a
larger request would simply make realloc fail, leaving the buffer unchanged);
the drain side condition says the send primitive reports at most the byte
count it was handed. -/
inductive BufReach : IOBuffer → Prop
  | init (size : Nat) (hpow : ∃ k, size = 2 ^ k) (hsz : size ≤ 2 ^ 63) :
      BufReach (iobuff_alloc size)
  | append (b : IOBuffer) (data : List Nat) (length : Nat) (r : Bool)
      (hb : BufReach b) (hfeas : b.size + length ≤ 2 ^ 63) :
      BufReach (iobuff_append b data length r).1
  | send (b : IOBuffer) (ret : Int) (hb : BufReach b)
      (hret : ret.toNat ≤ b.head - b.tail) :
      BufReach (iobuff_send b ret).1

theorem bufReach_inv {b : IOBuffer} (hb : BufReach b) : BufInv b := by
  induction hb with
  | init size hpow hsz =>
    exact ⟨Nat.le_refl _, by simp [iobuff_alloc], hpow, hsz⟩
  | append b data length r hb hfeas ih =>
    exact iobuff_append_inv b data length r ih hfeas
  | send b ret hb hret ih =>
    exact iobuff_send_inv b ret ih hret

/-- C7: for every circular buffer of power-of-two capacity, any sequence of
append and drain operations keeps the unsigned pending count head - tail in
[0, size] (the cursors stay ordered, so the unsigned subtraction never
underflows, and the count never exceeds the current capacity), with the buffer
empty exactly when head = tail and full exactly when head - tail = size. -/
theorem C7_cursor_invariant (b : IOBuffer) (hb : BufReach b) :
    (b.tail ≤ b.head ∧ b.head - b.tail ≤ b.size) ∧
    (iobuff_empty b = true ↔ b.head = b.tail) ∧
    (iobuff_full b = true ↔ b.head - b.tail = b.size) := by
  have hInv := bufReach_inv hb
  refine ⟨⟨hInv.1, hInv.2.1⟩, ?_, iobuff_full_iff hInv⟩
  unfold iobuff_empty
  simp

theorem C7_cursor_invariant_witness :
    BufReach (iobuff_send (iobuff_append (iobuff_alloc 8) [1, 2, 3] 3 false).1 2).1 ∧
    ((iobuff_send (iobuff_append (iobuff_alloc 8) [1, 2, 3] 3 false).1 2).1.tail ≤
        (iobuff_send (iobuff_append (iobuff_alloc 8) [1, 2, 3] 3 false).1 2).1.head ∧
      (iobuff_send (iobuff_append (iobuff_alloc 8) [1, 2, 3] 3 false).1 2).1.head -
          (iobuff_send (iobuff_append (iobuff_alloc 8) [1, 2, 3] 3 false).1 2).1.tail ≤
        (iobuff_send (iobuff_append (iobuff_alloc 8) [1, 2, 3] 3 false).1 2).1.size) := by
  have hr : BufReach (iobuff_send (iobuff_append (iobuff_alloc 8) [1, 2, 3] 3 false).1 2).1 := by
    refine BufReach.send _ 2 ?_ (by decide)
    refine BufReach.append _ [1, 2, 3] 3 false ?_ (by norm_num [iobuff_alloc])
    exact BufReach.init 8 ⟨3, rfl⟩ (by norm_num)
  exact ⟨hr, (C7_cursor_invariant _ hr).1⟩

/-- C8: with growth disabled and free space smaller than the requested length,
append writes exactly the free-space count of bytes, namely the next
free-space bytes of the input appended in order after the pending bytes, and
returns that count without failing; a zero-length append or an append onto a
full buffer returns 0 and leaves the buffer unchanged. -/
theorem C8_append_truncates (b : IOBuffer) (data : List Nat) (length : Nat)
    (hInv : BufInv b) (hlen : length ≤ data.length) :
    ((length = 0 ∨ iobuff_full b = true) → iobuff_append b data length false = (b, 0)) ∧
    (iobuff_full b = false →
      iobuff_space b.size b.head b.tail < length →
      (iobuff_append b data length false).2 = iobuff_space b.size b.head b.tail ∧
      (iobuff_append b data length false).1.size = b.size ∧
      (iobuff_append b data length false).1.tail = b.tail ∧
      (iobuff_append b data length false).1.head
        = b.head + iobuff_space b.size b.head b.tail ∧
      pendingBytes (iobuff_append b data length false).1
        = pendingBytes b ++ data.take (iobuff_space b.size b.head b.tail)) := by
  obtain ⟨h1, h2, hpow, h4⟩ := hInv
  have hW := w_large
  have hsp : iobuff_space b.size b.head b.tail = b.size - (b.head - b.tail) :=
    iobuff_space_eq h1 h2 (by omega)
  constructor
  · intro h0
    unfold iobuff_append
    rw [if_pos h0]
  · intro hnf hlt
    have hd : b.head - b.tail < b.size := by
      rcases Nat.lt_or_ge (b.head - b.tail) b.size with h | h
      · exact h
      · exfalso
        have := (iobuff_full_iff ⟨h1, h2, hpow, h4⟩).mpr (by omega)
        rw [hnf] at this
        exact Bool.false_ne_true this
    have hne : ¬(length = 0 ∨ iobuff_full b = true) := by
      rintro (h | h)
      · omega
      · rw [hnf] at h; exact Bool.false_ne_true h
    have hcs := iobuff_append_copy_spec b data length h1 hd hpow
    obtain ⟨hs, ht, hh, htot, hby⟩ := hcs
    have hmin : min length (b.size - (b.head - b.tail)) = b.size - (b.head - b.tail) := by
      omega
    have htot2 : (iobuff_append_copy b data length).2 = b.size - (b.head - b.tail) := by
      rw [htot, hmin]
    unfold iobuff_append
    rw [if_neg hne, if_neg (by simp)]
    refine ⟨by rw [htot2, hsp], hs, ht, ?_, ?_⟩
    · rw [hh, htot2, hsp]
    · have hb := hby hlen
      rw [hb, htot2, hsp]

theorem C8_append_truncates_witness :
    BufInv (iobuff_alloc 4) ∧ 5 ≤ [1, 2, 3, 4, 5].length ∧
    iobuff_full (iobuff_alloc 4) = false ∧
    iobuff_space (iobuff_alloc 4).size (iobuff_alloc 4).head (iobuff_alloc 4).tail < 5 ∧
    (iobuff_append (iobuff_alloc 4) [1, 2, 3, 4, 5] 5 false).2
      = iobuff_space (iobuff_alloc 4).size (iobuff_alloc 4).head (iobuff_alloc 4).tail := by
  have hInv : BufInv (iobuff_alloc 4) :=
    ⟨Nat.le_refl _, by simp [iobuff_alloc], ⟨2, rfl⟩, by norm_num [iobuff_alloc]⟩
  refine ⟨hInv, by norm_num, by decide, by decide, ?_⟩
  exact (((C8_append_truncates (iobuff_alloc 4) [1, 2, 3, 4, 5] 5 hInv (by norm_num)).2)
    (by decide) (by decide)).1

/-- C3 counterexample: on raw size_t cursor values with the pending count
head - tail (unsigned) inside [0, capacity] but head numerically behind tail,
the source's branchy free-space formula does not return
capacity - (head - tail) of the unsigned arithmetic: with capacity 8, head 2,
tail 2 ^ 64 - 2 the pending count is 4, the uniform formula gives 4, and the
source returns 2 ^ 64 - 4. -/
theorem C3_counterexample :
    usubW 2 (2 ^ 64 - 2) ≤ 8 ∧
    iobuff_space 8 2 (2 ^ 64 - 2) ≠ usubW 8 (usubW 2 (2 ^ 64 - 2)) := by decide

/-- C3 (amended): whenever head is numerically at or ahead of tail - which
holds in every state reachable without a cursor wrapping past 2 ^ 64 - the
free-space operation returns capacity - (head - tail), the uniform unsigned
formula; when head is numerically behind tail the source instead returns
tail - head. -/
theorem C3_space_uniform (size head tail : Nat) (hsz : size < W)
    (h1 : tail ≤ head) (h2 : head - tail ≤ size) :
    iobuff_space size head tail = usubW size (usubW head tail) ∧
    usubW size (usubW head tail) = size - (head - tail) := by
  have he : usubW head tail = head - tail := usubW_of_le h1 (by omega)
  have he2 : usubW size (head - tail) = size - (head - tail) :=
    usubW_of_le h2 (by omega)
  rw [he, he2]
  exact ⟨iobuff_space_eq h1 h2 hsz, rfl⟩

theorem C3_space_uniform_witness :
    8 < W ∧ 3 ≤ 5 ∧ 5 - 3 ≤ 8 ∧
    iobuff_space 8 5 3 = usubW 8 (usubW 5 3) := by
  refine ⟨by norm_num [W], by norm_num, by norm_num, ?_⟩
  exact (C3_space_uniform 8 5 3 (by norm_num [W]) (by norm_num) (by norm_num)).1

/-- C1 (code bug): the drain decides whether to linearize by comparing the raw
size_t cursors (tail > head) instead of testing whether the masked pending
range crosses the storage boundary. On the reachable buffer below - capacity
8, cursors tail 5, head 10, built by appending six bytes, draining five and
appending four more - the pending range wraps past the boundary, yet
tail > head is false, so the source sends directly from the tail offset and
the bytes handed to the send primitive are not the pending bytes: positions 3
and 4 of the handed sequence are read from beyond the end of the allocation. -/
theorem C1_send_not_linearized :
    (iobuff_append (iobuff_send
        (iobuff_append (iobuff_alloc 8) [1, 2, 3, 4, 5, 6] 6 false).1 5).1
        [7, 8, 9, 10] 4 false).1.tail ≤
      (iobuff_append (iobuff_send
        (iobuff_append (iobuff_alloc 8) [1, 2, 3, 4, 5, 6] 6 false).1 5).1
        [7, 8, 9, 10] 4 false).1.head ∧
    ((iobuff_append (iobuff_send
        (iobuff_append (iobuff_alloc 8) [1, 2, 3, 4, 5, 6] 6 false).1 5).1
        [7, 8, 9, 10] 4 false).1.tail &&&
        ((iobuff_append (iobuff_send
          (iobuff_append (iobuff_alloc 8) [1, 2, 3, 4, 5, 6] 6 false).1 5).1
          [7, 8, 9, 10] 4 false).1.size - 1)) +
      ((iobuff_append (iobuff_send
        (iobuff_append (iobuff_alloc 8) [1, 2, 3, 4, 5, 6] 6 false).1 5).1
        [7, 8, 9, 10] 4 false).1.head -
       (iobuff_append (iobuff_send
        (iobuff_append (iobuff_alloc 8) [1, 2, 3, 4, 5, 6] 6 false).1 5).1
        [7, 8, 9, 10] 4 false).1.tail) >
      (iobuff_append (iobuff_send
        (iobuff_append (iobuff_alloc 8) [1, 2, 3, 4, 5, 6] 6 false).1 5).1
        [7, 8, 9, 10] 4 false).1.size ∧
    iobuff_sendBytes (iobuff_append (iobuff_send
        (iobuff_append (iobuff_alloc 8) [1, 2, 3, 4, 5, 6] 6 false).1 5).1
        [7, 8, 9, 10] 4 false).1 ≠
      pendingBytes (iobuff_append (iobuff_send
        (iobuff_append (iobuff_alloc 8) [1, 2, 3, 4, 5, 6] 6 false).1 5).1
        [7, 8, 9, 10] 4 false).1 := by decide

/-- C2 (code bug): growth reallocation does not re-linearize wrapped content.
Starting from a capacity-4 buffer holding the wrapped pending bytes 3, 4, 5,
an append of 6, 7 with growth allowed resizes to capacity 8 in place; reading
back afterwards yields 3, 4, 0, 6, 7 instead of 3, 4, 5, 6, 7 - the byte that
lived before the old wrap boundary is lost. -/
theorem C2_growth_loses_bytes :
    pendingBytes (iobuff_append (iobuff_send
        (iobuff_append (iobuff_alloc 4) [1, 2, 3] 3 false).1 2).1
        [4, 5] 2 false).1 = [3, 4, 5] ∧
    (iobuff_append (iobuff_append (iobuff_send
        (iobuff_append (iobuff_alloc 4) [1, 2, 3] 3 false).1 2).1
        [4, 5] 2 false).1 [6, 7] 2 true).2 = 2 ∧
    (iobuff_append (iobuff_append (iobuff_send
        (iobuff_append (iobuff_alloc 4) [1, 2, 3] 3 false).1 2).1
        [4, 5] 2 false).1 [6, 7] 2 true).1.size = 8 ∧
    pendingBytes (iobuff_append (iobuff_append (iobuff_send
        (iobuff_append (iobuff_alloc 4) [1, 2, 3] 3 false).1 2).1
        [4, 5] 2 false).1 [6, 7] 2 true).1 ≠ [3, 4, 5] ++ [6, 7] := by decide

/-- Entry of the pollfd array: a descriptor (negative marks an unused slot),
the requested event mask and the observed event mask. -/
structure Pollfd where
  fd : Int
  events : Nat
  revents : Nat
deriving DecidableEq

/-- struct pollfds of src/lib/as_server.h lines 59-64: the watch array as a
total function on slot indexes, the count of watched descriptors, the array
capacity and the poll timeout. -/
structure Pollfds where
  fds : Nat → Pollfd
  polled : Nat
  length : Nat
  timeout : Int

/-- create_pollfds from src/src/async_server.c lines 144-176: every slot gets
descriptor -1, nothing watched, blocking timeout. -/
def create_pollfds (max_descs : Nat) : Pollfds :=
  { fds := fun _ => { fd := -1, events := 0, revents := 0 },
    polled := 0, length := max_descs, timeout := -1 }

/-- Scan of the first polled slots for a descriptor: the lookup loops of
add_event (lines 203-212) and remove_event (lines 238-242), returning the
first matching slot index. -/
def findFd (p : Pollfds) (fd : Int) : Option Nat :=
  (List.range p.polled).find? (fun i => (p.fds i).fd == fd)

/-- add_event from src/src/async_server.c lines 191-224: fail when the array
is full (checked first, even for a pure update), update the event mask in
place and clear the observed mask when the descriptor is already watched,
otherwise append a fresh entry. -/
def add_event (p : Pollfds) (fd : Int) (events : Nat) : Pollfds × Int :=
  if p.polled = p.length then (p, -1)
  else
    match findFd p fd with
    | some i =>
      let f2 := Function.update p.fds i { p.fds i with events := events, revents := 0 }
      ({ p with fds := f2 }, 0)
    | none =>
      let f2 := Function.update p.fds p.polled { fd := fd, events := events, revents := 0 }
      ({ p with fds := f2, polled := p.polled + 1 }, 0)

/-- Compaction loop of remove_event (lines 259-265): from the cleared slot on,
shift every following live entry one position forward, invalidating the slot
it came from; the fuel argument counts the remaining iterations polled - i of
the source loop. -/
def packLoop : Nat → (Nat → Pollfd) → Nat → Nat → (Nat → Pollfd)
  | 0, fds, _, _ => fds
  | fuel + 1, fds, d, i =>
    if (fds i).fd < 0 then packLoop fuel fds d (i + 1)
    else
      let g := Function.update fds d (fds i)
      let g2 := Function.update g i { g i with fd := -1 }
      packLoop fuel g2 (d + 1) (i + 1)

/-- remove_event from src/src/async_server.c lines 227-268: no-op when nothing
is polled or the descriptor is not found; otherwise clear the slot, compact
the tail of the array and decrement the count. -/
def remove_event (p : Pollfds) (fd : Int) : Pollfds :=
  if p.polled = 0 then p
  else
    match findFd p fd with
    | none => p
    | some idx =>
      let fds1 := Function.update p.fds idx { fd := -1, events := 0, revents := 0 }
      let fds2 := packLoop (p.polled - idx) fds1 idx idx
      { p with fds := fds2, polled := p.polled - 1 }

/-- Well-formed registry: watched count within capacity, every watched slot
holding a non-negative descriptor, and no descriptor watched twice. -/
def RegOk (p : Pollfds) : Prop :=
  p.polled ≤ p.length ∧ (∀ i, i < p.polled → 0 ≤ (p.fds i).fd) ∧
  (∀ i, i < p.polled → ∀ j, j < p.polled → (p.fds i).fd = (p.fds j).fd → i = j)

instance (p : Pollfds) : Decidable (RegOk p) := by
  unfold RegOk
  infer_instance

/-- The watched entries in slot order. -/
def watchList (p : Pollfds) : List Pollfd := (List.range p.polled).map p.fds

theorem findFd_found {p : Pollfds} {d : Int}
    (h : ∃ i, i < p.polled ∧ (p.fds i).fd = d) :
    ∃ i, findFd p d = some i ∧ i < p.polled ∧ (p.fds i).fd = d := by
  obtain ⟨i0, hi0, hd0⟩ := h
  have hsome : (findFd p d).isSome := by
    rw [findFd, List.find?_isSome]
    exact ⟨i0, by simpa [List.mem_range] using hi0, by simp [hd0]⟩
  obtain ⟨i, hi⟩ := Option.isSome_iff_exists.mp hsome
  refine ⟨i, hi, ?_, ?_⟩
  · have hm := List.mem_of_find?_eq_some hi
    simpa [List.mem_range] using hm
  · have hp := List.find?_some hi
    simpa using hp

theorem findFd_not_found {p : Pollfds} {d : Int}
    (h : ∀ i, i < p.polled → (p.fds i).fd ≠ d) : findFd p d = none := by
  rw [findFd, List.find?_eq_none]
  intro i hi
  simp only [List.mem_range] at hi
  simpa using h i hi

theorem add_event_update {p : Pollfds} {d : Int} (e : Nat)
    (hok : RegOk p) (hroom : p.polled < p.length)
    (hmem : ∃ i, i < p.polled ∧ (p.fds i).fd = d) :
    (add_event p d e).2 = 0 ∧
    (add_event p d e).1.polled = p.polled ∧
    (add_event p d e).1.length = p.length ∧
    RegOk (add_event p d e).1 ∧
    (∀ j, ((add_event p d e).1.fds j).fd = (p.fds j).fd) ∧
    (∀ j, j < p.polled → ((add_event p d e).1.fds j).fd = d →
      (add_event p d e).1.fds j = { fd := d, events := e, revents := 0 }) ∧
    (∀ j, (p.fds j).fd ≠ d → (add_event p d e).1.fds j = p.fds j) := by
  obtain ⟨i, hfind, hip, hifd⟩ := findFd_found hmem
  have hne : ¬ p.polled = p.length := by omega
  have hEq : add_event p d e = ({ p with fds := Function.update p.fds i { p.fds i with events := e, revents := 0 } }, 0) := by
    unfold add_event
    rw [if_neg hne, hfind]
  rw [hEq]
  have hfd : ∀ j, ((Function.update p.fds i { p.fds i with events := e, revents := 0 }) j).fd = (p.fds j).fd := by
    intro j
    by_cases hji : j = i
    · subst hji; rw [Function.update_same]
    · rw [Function.update_noteq hji]
  refine ⟨rfl, rfl, rfl, ⟨hok.1, ?_, ?_⟩, hfd, ?_, ?_⟩
  · intro j hj
    have hj2 : j < p.polled := hj
    show 0 ≤ ((Function.update p.fds i { p.fds i with events := e, revents := 0 }) j).fd
    rw [hfd j]
    exact hok.2.1 j hj2
  · intro a ha b hb hab
    have ha2 : a < p.polled := ha
    have hb2 : b < p.polled := hb
    have hab2 : ((Function.update p.fds i { p.fds i with events := e, revents := 0 }) a).fd = ((Function.update p.fds i { p.fds i with events := e, revents := 0 }) b).fd := hab
    rw [hfd a, hfd b] at hab2
    exact hok.2.2 a ha2 b hb2 hab2
  · intro j hj hjd
    have hjd2 : ((Function.update p.fds i { p.fds i with events := e, revents := 0 }) j).fd = d := hjd
    rw [hfd j] at hjd2
    have hji : j = i := hok.2.2 j hj i hip (by rw [hjd2, hifd])
    subst hji
    show (Function.update p.fds j { p.fds j with events := e, revents := 0 }) j = _
    rw [Function.update_same]
    simp [hjd2]
  · intro j hjd
    have hji : j ≠ i := by
      intro h; subst h; exact hjd hifd
    show (Function.update p.fds i { p.fds i with events := e, revents := 0 }) j = p.fds j
    rw [Function.update_noteq hji]

/-- C6 (amended): if a descriptor is already watched and the watch array is
not at capacity, add_event succeeds, replaces that entry's requested event
mask, clears its observed mask, leaves exactly one watched entry for the
descriptor and keeps the watched count unchanged; calling it again with a
different mask again leaves exactly one entry for the descriptor, now
carrying the latest mask. The capacity proviso is forced by the source, which
rejects any add - even a pure update - on a full array. -/
theorem C6_update_in_place (p : Pollfds) (d : Int) (e e2 : Nat)
    (hok : RegOk p) (hroom : p.polled < p.length)
    (hmem : ∃ i, i < p.polled ∧ (p.fds i).fd = d) :
    (add_event p d e).2 = 0 ∧
    (add_event p d e).1.polled = p.polled ∧
    (∀ j, j < p.polled → ((add_event p d e).1.fds j).fd = d →
      (add_event p d e).1.fds j = { fd := d, events := e, revents := 0 }) ∧
    (∃! j, j < p.polled ∧ ((add_event p d e).1.fds j).fd = d) ∧
    ((add_event (add_event p d e).1 d e2).1.polled = p.polled ∧
      (∀ j, j < p.polled → ((add_event (add_event p d e).1 d e2).1.fds j).fd = d →
        (add_event (add_event p d e).1 d e2).1.fds j
          = { fd := d, events := e2, revents := 0 }) ∧
      (∃! j, j < p.polled ∧ ((add_event (add_event p d e).1 d e2).1.fds j).fd = d)) := by
  obtain ⟨hr0, hp0, hl0, hok1, hfd1, hset1, hkeep1⟩ := add_event_update e hok hroom hmem
  obtain ⟨i0, hi0, hd0⟩ := hmem
  have hmem1 : ∃ i, i < (add_event p d e).1.polled ∧ ((add_event p d e).1.fds i).fd = d := by
    refine ⟨i0, ?_, ?_⟩
    · rw [hp0]; exact hi0
    · rw [hfd1 i0]; exact hd0
  have hroom1 : (add_event p d e).1.polled < (add_event p d e).1.length := by
    rw [hp0, hl0]; exact hroom
  obtain ⟨hr0b, hp0b, hl0b, hok2, hfd2, hset2, hkeep2⟩ :=
    add_event_update e2 hok1 hroom1 hmem1
  refine ⟨hr0, hp0, hset1, ?_, ?_, ?_, ?_⟩
  · refine ⟨i0, ⟨hi0, by rw [hfd1 i0]; exact hd0⟩, ?_⟩
    rintro y ⟨hy, hyd⟩
    rw [hfd1 y] at hyd
    exact hok.2.2 y hy i0 hi0 (by rw [hyd, hd0])
  · rw [hp0b, hp0]
  · intro j hj hjd
    exact hset2 j (by rw [hp0]; exact hj) hjd
  · refine ⟨i0, ⟨hi0, by rw [hfd2 i0, hfd1 i0]; exact hd0⟩, ?_⟩
    rintro y ⟨hy, hyd⟩
    rw [hfd2 y, hfd1 y] at hyd
    exact hok.2.2 y hy i0 hi0 (by rw [hyd, hd0])

/-- C6 counterexample: in a full registry - capacity 1 holding descriptor 5
with mask 3 - updating descriptor 5 to mask 7 returns -1 and leaves the mask
at 3, because the source checks for a full array before looking for the
already-watched entry; so the claim as stated (every update of a watched
descriptor succeeds and replaces the mask) fails on the code. -/
theorem C6_counterexample :
    (add_event (add_event (create_pollfds 1) 5 3).1 5 7).2 = -1 ∧
    ((add_event (add_event (create_pollfds 1) 5 3).1 5 7).1.fds 0).events = 3 := by
  decide

theorem C6_update_in_place_witness :
    RegOk (add_event (create_pollfds 2) 7 1).1 ∧
    (add_event (create_pollfds 2) 7 1).1.polled < (add_event (create_pollfds 2) 7 1).1.length ∧
    (add_event (add_event (create_pollfds 2) 7 1).1 7 4).2 = 0 := by
  refine ⟨by decide, by decide, ?_⟩
  exact (C6_update_in_place (add_event (create_pollfds 2) 7 1).1 7 4 9 (by decide) (by decide)
    ⟨0, by decide, by decide⟩).1

theorem packLoop_shift : ∀ (fuel : Nat) (fds : Nat → Pollfd) (d : Nat),
    (∀ j, d + 1 ≤ j → j < d + 1 + fuel → 0 ≤ (fds j).fd) →
    (∀ j, j < d → packLoop fuel fds d (d + 1) j = fds j) ∧
    (∀ j, d ≤ j → j + 1 < d + 1 + fuel → packLoop fuel fds d (d + 1) j = fds (j + 1)) ∧
    (∀ j, d + 1 + fuel ≤ j → packLoop fuel fds d (d + 1) j = fds j) := by
  intro fuel
  induction fuel with
  | zero =>
    intro fds d _
    refine ⟨fun j _ => rfl, fun j h1 h2 => by omega, fun j _ => rfl⟩
  | succ fuel ih =>
    intro fds d hvalid
    have hv1 : 0 ≤ (fds (d + 1)).fd := hvalid (d + 1) (by omega) (by omega)
    have hstep : packLoop (fuel + 1) fds d (d + 1)
        = packLoop fuel
          (Function.update (Function.update fds d (fds (d + 1))) (d + 1)
            { (Function.update fds d (fds (d + 1))) (d + 1) with fd := -1 })
          (d + 1) (d + 2) := by
      show (if (fds (d + 1)).fd < 0 then _ else _) = _
      rw [if_neg (by omega)]
    set g2 := Function.update (Function.update fds d (fds (d + 1))) (d + 1)
      { (Function.update fds d (fds (d + 1))) (d + 1) with fd := -1 } with hg2
    have hg2at : ∀ j, j ≠ d → j ≠ d + 1 → g2 j = fds j := by
      intro j hjd hjd1
      rw [hg2, Function.update_noteq hjd1, Function.update_noteq hjd]
    have hg2d : g2 d = fds (d + 1) := by
      rw [hg2, Function.update_noteq (by omega), Function.update_same]
    have hvalid2 : ∀ j, d + 2 ≤ j → j < d + 2 + fuel → 0 ≤ (g2 j).fd := by
      intro j h1 h2
      rw [hg2at j (by omega) (by omega)]
      exact hvalid j (by omega) (by omega)
    obtain ⟨iha, ihb, ihc⟩ := ih g2 (d + 1) hvalid2
    refine ⟨?_, ?_, ?_⟩
    · intro j hj
      rw [hstep, iha j (by omega), hg2at j (by omega) (by omega)]
    · intro j h1 h2
      by_cases hjd : j = d
      · have hgj : g2 j = fds (j + 1) := by rw [hjd]; exact hg2d
        rw [hstep, iha j (by omega), hgj]
      · rw [hstep, ihb j (by omega) (by omega), hg2at (j + 1) (by omega) (by omega)]
    · intro j hj
      rw [hstep, ihc j (by omega), hg2at j (by omega) (by omega)]

theorem remove_event_found {p : Pollfds} {d : Int} {idx : Nat}
    (hok : RegOk p) (hfind : findFd p d = some idx) :
    idx < p.polled ∧
    (remove_event p d).polled = p.polled - 1 ∧
    (remove_event p d).length = p.length ∧
    (∀ j, j < idx → (remove_event p d).fds j = p.fds j) ∧
    (∀ j, idx ≤ j → j + 1 < p.polled → (remove_event p d).fds j = p.fds (j + 1)) := by
  have hip : idx < p.polled := by
    have hm := List.mem_of_find?_eq_some hfind
    simpa [List.mem_range] using hm
  have hne : ¬ p.polled = 0 := by omega
  have hstep : remove_event p d = { p with fds := packLoop (p.polled - idx) (Function.update p.fds idx { fd := -1, events := 0, revents := 0 }) idx idx, polled := p.polled - 1 } := by
    unfold remove_event
    rw [if_neg hne, hfind]
  set fds1 := Function.update p.fds idx { fd := -1, events := 0, revents := 0 } with hf1
  have hf1at : ∀ j, j ≠ idx → fds1 j = p.fds j := by
    intro j hj
    rw [hf1, Function.update_noteq hj]
  have hf1idx : (fds1 idx).fd = -1 := by
    rw [hf1, Function.update_same]
  obtain ⟨fuel, hfuel⟩ : ∃ fuel, p.polled - idx = fuel + 1 := ⟨p.polled - idx - 1, by omega⟩
  have hskip : packLoop (p.polled - idx) fds1 idx idx = packLoop fuel fds1 idx (idx + 1) := by
    rw [hfuel]
    show (if (fds1 idx).fd < 0 then _ else _) = _
    rw [if_pos (by omega)]
  have hvalid : ∀ j, idx + 1 ≤ j → j < idx + 1 + fuel → 0 ≤ (fds1 j).fd := by
    intro j h1 h2
    rw [hf1at j (by omega)]
    exact hok.2.1 j (by omega)
  obtain ⟨ha, hb, _⟩ := packLoop_shift fuel fds1 idx hvalid
  refine ⟨hip, by rw [hstep], by rw [hstep], ?_, ?_⟩
  · intro j hj
    rw [hstep]
    show packLoop (p.polled - idx) fds1 idx idx j = p.fds j
    rw [hskip, ha j hj, hf1at j (by omega)]
  · intro j h1 h2
    rw [hstep]
    show packLoop (p.polled - idx) fds1 idx idx j = p.fds (j + 1)
    rw [hskip, hb j h1 (by omega), hf1at (j + 1) (by omega)]

/-- C9: on a well-formed registry, removing a watched descriptor leaves
exactly one fewer watched entry, all contiguous at the front of the array
(every surviving slot holds a live descriptor) and in their original relative
order - the watch list becomes the original watch list with that descriptor's
entry filtered out; removing a descriptor that is not watched leaves the
registry completely unchanged. -/
theorem C9_remove_compacts (p : Pollfds) (d : Int) (hok : RegOk p) :
    ((∃ i, i < p.polled ∧ (p.fds i).fd = d) →
      (remove_event p d).polled + 1 = p.polled ∧
      (∀ i, i < (remove_event p d).polled → 0 ≤ ((remove_event p d).fds i).fd) ∧
      watchList (remove_event p d) = (watchList p).filter (fun en => en.fd != d)) ∧
    ((∀ i, i < p.polled → (p.fds i).fd ≠ d) → remove_event p d = p) := by
  constructor
  · intro hmem
    obtain ⟨idx, hfind, hip, hifd⟩ := findFd_found hmem
    obtain ⟨hip2, hpol, _, hlow, hhigh⟩ := remove_event_found hok hfind
    have huniq : ∀ j, j < p.polled → j ≠ idx → (p.fds j).fd ≠ d := by
      intro j hj hji hjd
      exact hji (hok.2.2 j hj idx hip (by rw [hjd, hifd]))
    refine ⟨by omega, ?_, ?_⟩
    · intro i hi
      rw [hpol] at hi
      by_cases hiidx : i < idx
      · rw [hlow i hiidx]
        exact hok.2.1 i (by omega)
      · rw [hhigh i (by omega) (by omega)]
        exact hok.2.1 (i + 1) (by omega)
    · have hfilter : (watchList p).filter (fun en => en.fd != d)
          = (List.range idx).map p.fds
            ++ (List.range' (idx + 1) (p.polled - idx - 1)).map p.fds := by
        have hsplit : watchList p
            = (List.range idx).map p.fds
              ++ p.fds idx :: (List.range' (idx + 1) (p.polled - idx - 1)).map p.fds := by
          apply List.ext_getElem
          · simp [watchList]
            omega
          · intro n h1 h2
            simp only [watchList, List.getElem_map, List.getElem_range]
            by_cases hn : n < idx
            · rw [List.getElem_append_left (by simpa using hn)]
              simp
            · rw [List.getElem_append_right (by simpa using by omega)]
              by_cases hn2 : n = idx
              · subst hn2
                simp
              · have hpos : 0 < n - (List.map p.fds (List.range idx)).length := by
                  simp; omega
                rw [List.getElem_cons]
                rw [dif_neg (by simp; omega)]
                simp only [List.getElem_map, List.getElem_range', List.length_map,
                  List.length_range]
                congr 1
                omega
        rw [hsplit, List.filter_append]
        have hA : ((List.range idx).map p.fds).filter (fun en => en.fd != d)
            = (List.range idx).map p.fds := by
          rw [List.filter_eq_self]
          intro a ha
          obtain ⟨j, hj, rfl⟩ := by simpa [List.mem_map, List.mem_range] using ha
          simpa using huniq j (by omega) (by omega)
        have hB : (p.fds idx :: (List.range' (idx + 1) (p.polled - idx - 1)).map p.fds).filter
              (fun en => en.fd != d)
            = (List.range' (idx + 1) (p.polled - idx - 1)).map p.fds := by
          rw [List.filter_cons_of_neg (by simp [hifd])]
          rw [List.filter_eq_self]
          intro a ha
          obtain ⟨j, hj, rfl⟩ := by simpa [List.mem_map, List.mem_range'] using ha
          simpa using huniq j (by omega) (by omega)
        rw [hA, hB]
      rw [hfilter]
      apply List.ext_getElem
      · simp [watchList, hpol]
        omega
      · intro n h1 h2
        simp only [watchList, List.getElem_map, List.getElem_range]
        simp only [watchList, hpol, List.length_map, List.length_range] at h1
        by_cases hn : n < idx
        · rw [List.getElem_append_left (by simpa using hn)]
          simp only [List.getElem_map, List.getElem_range]
          exact hlow n hn
        · rw [List.getElem_append_right (by simpa using by omega)]
          simp only [List.getElem_map, List.getElem_range', List.length_map,
            List.length_range]
          rw [hhigh n (by omega) (by omega)]
          congr 1
          omega
  · intro hnone
    have hfind : findFd p d = none := findFd_not_found hnone
    unfold remove_event
    by_cases hz : p.polled = 0
    · rw [if_pos hz]
    · rw [if_neg hz, hfind]

theorem C9_remove_compacts_witness :
    RegOk (add_event (add_event (add_event (create_pollfds 4) 3 1).1 5 1).1 6 1).1 ∧
    (remove_event (add_event (add_event (add_event (create_pollfds 4) 3 1).1 5 1).1 6 1).1
      5).polled + 1
      = (add_event (add_event (add_event (create_pollfds 4) 3 1).1 5 1).1 6 1).1.polled := by
  refine ⟨by decide, ?_⟩
  have h := (C9_remove_compacts (add_event (add_event (add_event
    (create_pollfds 4) 3 1).1 5 1).1 6 1).1 5 (by decide)).1 ⟨1, by decide, by decide⟩
  rw [h.1]

/-- Event mask bits of poll(2) as used by the source. -/
def POLLIN : Nat := 1

/-- Priority readiness bit. -/
def POLLPRI : Nat := 2

/-- Writability readiness bit. -/
def POLLOUT : Nat := 4

/-- Hangup readiness bit. -/
def POLLHUP : Nat := 16

/-- Modelled from the spec: the descriptor-keyed lookup table collaborator
(htable_create, htable_insert, htable_remove, htable_get live outside src/;
the spec describes them in its external-interfaces section as an associative
container keyed by raw integer descriptors). Only the key set matters to the
claims: insert records a key, remove erases it, get is membership. -/
structure HTable where
  keys : List Int
deriving DecidableEq

/-- Modelled from the spec: htable_insert records the key. -/
def htable_insert (t : HTable) (k : Int) : HTable := ⟨t.keys ++ [k]⟩

/-- Modelled from the spec: htable_remove erases the key. -/
def htable_remove (t : HTable) (k : Int) : HTable := ⟨t.keys.erase k⟩

/-- Modelled from the spec: htable_get finds the key. -/
def htable_get (t : HTable) (k : Int) : Bool := t.keys.contains k

/-- Heap allocations owned by one connection: the context chunk (client_alloc)
and the two buffers handed out by iobuff_alloc during as_accept, tagged by the
connection descriptor. -/
inductive AllocTag
  | ctx (fd : Int)
  | inBuf (fd : Int)
  | outBuf (fd : Int)
deriving DecidableEq

/-- Server-side state touched by the connection lifecycle: the readiness
registry, the descriptor lookup table and the set of live heap allocations. -/
structure ServerSt where
  polled : Pollfds
  contexts : HTable
  live : List AllocTag

/-- Which fallible external step of as_accept fails, if any. Registration in
the registry (add_event) is not listed: its failure is determined by the
registry state itself. -/
inductive AcceptOutcome
  | ctxAllocFail
  | acceptFail
  | getflFail
  | setflFail
  | insertFail
  | inBufFail
  | outBufFail
  | ok
deriving DecidableEq

/-- as_accept from src/src/async_server.c lines 483-555, at the level of
registry, lookup table and live allocations, for a new connection descriptor
fd. The goto unwind of the source frees the context chunk on every failure
path, but no failure path ever calls remove_event or htable_remove, so a
registry entry or table entry created before the failing step stays behind;
that is reproduced faithfully. On the two buffer-allocation failures the
source additionally calls iobuff_free on the buffer whose allocation just
returned null before freeing what exists; that undefined free does not change
the tracked state and is not modelled further. -/
def as_accept (s : ServerSt) (fd : Int) (o : AcceptOutcome) : ServerSt × Bool :=
  match o with
  | .ctxAllocFail => (s, false)
  | .acceptFail => (s, false)
  | .getflFail => (s, false)
  | .setflFail => (s, false)
  | _ =>
    let ar := add_event s.polled fd (POLLIN ||| POLLOUT ||| POLLHUP)
    if ar.2 < 0 then (s, false)
    else
      match o with
      | .insertFail => ({ s with polled := ar.1 }, false)
      | .inBufFail => ({ s with polled := ar.1, contexts := htable_insert s.contexts fd }, false)
      | .outBufFail => ({ s with polled := ar.1, contexts := htable_insert s.contexts fd }, false)
      | _ =>
        let live2 := s.live ++ [AllocTag.ctx fd, AllocTag.inBuf fd, AllocTag.outBuf fd]
        ({ s with polled := ar.1, contexts := htable_insert s.contexts fd, live := live2 }, true)

/-- as_disconnect from src/src/async_server.c lines 560-575: remove the
registry entry, remove the lookup-table entry, close the socket and free the
context chunk. The source never calls iobuff_free on the connection's two
buffers, so their allocations stay live. -/
def as_disconnect (s : ServerSt) (fd : Int) : ServerSt :=
  { polled := remove_event s.polled fd,
    contexts := htable_remove s.contexts fd,
    live := s.live.erase (AllocTag.ctx fd) }

/-- A server state as it stands after as_bind: the listener descriptor alone
occupies slot 0 of the registry, the lookup table and the per-connection heap
are empty. -/
def boundServer : ServerSt :=
  { polled := (add_event (create_pollfds 4) 3 (POLLIN ||| POLLPRI)).1,
    contexts := ⟨[]⟩, live := [] }

/-- C4 (code bug): when the input-buffer allocation fails after the new
descriptor was already registered and inserted into the lookup table,
as_accept returns failure but the teardown chain (error_in_buffer,
error_disconnect, error_free) never removes the registry entry or the table
entry: afterwards the Readiness Registry still watches descriptor 5 and the
lookup table still contains it, contradicting the claimed full unwind. The
same holds for the lookup-table-insert failure, after which the registry
entry survives. -/
theorem C4_accept_unwind_leaves_entries :
    (as_accept boundServer 5 AcceptOutcome.inBufFail).2 = false ∧
    (∃ i, i < (as_accept boundServer 5 AcceptOutcome.inBufFail).1.polled.polled ∧
      ((as_accept boundServer 5 AcceptOutcome.inBufFail).1.polled.fds i).fd = 5) ∧
    htable_get (as_accept boundServer 5 AcceptOutcome.inBufFail).1.contexts 5 = true ∧
    (as_accept boundServer 5 AcceptOutcome.insertFail).2 = false ∧
    (∃ i, i < (as_accept boundServer 5 AcceptOutcome.insertFail).1.polled.polled ∧
      ((as_accept boundServer 5 AcceptOutcome.insertFail).1.polled.fds i).fd = 5) := by
  refine ⟨by decide, ⟨1, by decide, by decide⟩, by decide, by decide, ⟨1, by decide, by decide⟩⟩

/-- C5 (code bug): disconnecting an accepted connection does remove its
descriptor from the Readiness Registry (the watched count drops from 2 to 1)
and does make a subsequent lookup return not-found, and it frees the context
chunk - but it never releases the two buffer allocations made for the
connection during accept, contradicting the claim that the context's memory
including both buffers' storage is released. -/
theorem C5_disconnect_leaks_buffers :
    (as_accept boundServer 5 AcceptOutcome.ok).1.polled.polled = 2 ∧
    htable_get (as_accept boundServer 5 AcceptOutcome.ok).1.contexts 5 = true ∧
    (as_disconnect (as_accept boundServer 5 AcceptOutcome.ok).1 5).polled.polled = 1 ∧
    htable_get (as_disconnect (as_accept boundServer 5 AcceptOutcome.ok).1 5).contexts 5
      = false ∧
    AllocTag.ctx 5 ∉ (as_disconnect (as_accept boundServer 5 AcceptOutcome.ok).1 5).live ∧
    AllocTag.inBuf 5 ∈ (as_disconnect (as_accept boundServer 5 AcceptOutcome.ok).1 5).live ∧
    AllocTag.outBuf 5 ∈ (as_disconnect (as_accept boundServer 5 AcceptOutcome.ok).1 5).live := by
  decide

/-- One callback invocation of a dispatch iteration. -/
inductive DispatchCall
  | listener
  | conn (slot : Nat)
deriving DecidableEq

/-- Ordering of dispatch calls: the listener call precedes every connection
call, and connection calls are ordered by strictly increasing slot. -/
def callLt : DispatchCall → DispatchCall → Prop
  | .listener, .conn _ => True
  | .conn s, .conn t => s < t
  | _, _ => False

/-- Connection half of as_poll (src/src/async_server.c lines 597-608): walk
the slots from index i on, skipping any slot whose observed mask is zero and
invoking the slot's connection callback otherwise; the fuel counts the
remaining iterations polled - i. -/
def pollLoopTrace (p : Pollfds) : Nat → Nat → List DispatchCall
  | _, 0 => []
  | i, fuel + 1 =>
    (if (p.fds i).revents = 0 then [] else [DispatchCall.conn i])
      ++ pollLoopTrace p (i + 1) fuel

/-- Callback invocation sequence of one successful as_poll iteration
(src/src/async_server.c lines 577-611): the listener callback exactly when
slot 0 observed any event, then the connection callbacks for slots 1 and up. -/
def as_poll_trace (p : Pollfds) : List DispatchCall :=
  (if (p.fds 0).revents ≠ 0 then [DispatchCall.listener] else [])
    ++ pollLoopTrace p 1 (p.polled - 1)

theorem pollLoopTrace_mem (p : Pollfds) :
    ∀ fuel i s, DispatchCall.conn s ∈ pollLoopTrace p i fuel ↔
      (i ≤ s ∧ s < i + fuel ∧ (p.fds s).revents ≠ 0) := by
  intro fuel
  induction fuel with
  | zero =>
    intro i s
    simp [pollLoopTrace]
    omega
  | succ fuel ih =>
    intro i s
    show DispatchCall.conn s ∈
      (if (p.fds i).revents = 0 then [] else [DispatchCall.conn i])
        ++ pollLoopTrace p (i + 1) fuel ↔ _
    rw [List.mem_append, ih (i + 1) s]
    by_cases hz : (p.fds i).revents = 0
    · rw [if_pos hz]
      simp only [List.not_mem_nil, false_or]
      constructor
      · rintro ⟨h1, h2, h3⟩
        exact ⟨by omega, by omega, h3⟩
      · rintro ⟨h1, h2, h3⟩
        have hsi : s ≠ i := by
          intro h; subst h; exact h3 hz
        exact ⟨by omega, by omega, h3⟩
    · rw [if_neg hz]
      simp only [List.mem_singleton]
      constructor
      · rintro (h | ⟨h1, h2, h3⟩)
        · have hsi : s = i := by
            cases h
            rfl
          subst hsi
          exact ⟨by omega, by omega, hz⟩
        · exact ⟨by omega, by omega, h3⟩
      · rintro ⟨h1, h2, h3⟩
        by_cases hsi : s = i
        · subst hsi
          exact Or.inl rfl
        · exact Or.inr ⟨by omega, by omega, h3⟩

theorem pollLoopTrace_listener (p : Pollfds) :
    ∀ fuel i, DispatchCall.listener ∉ pollLoopTrace p i fuel := by
  intro fuel
  induction fuel with
  | zero =>
    intro i
    simp [pollLoopTrace]
  | succ fuel ih =>
    intro i
    show DispatchCall.listener ∉
      (if (p.fds i).revents = 0 then [] else [DispatchCall.conn i])
        ++ pollLoopTrace p (i + 1) fuel
    rw [List.mem_append]
    rintro (h | h)
    · by_cases hz : (p.fds i).revents = 0
      · rw [if_pos hz] at h
        exact List.not_mem_nil _ h
      · rw [if_neg hz] at h
        simp at h
    · exact ih (i + 1) h

theorem pollLoopTrace_pairwise (p : Pollfds) :
    ∀ fuel i, (pollLoopTrace p i fuel).Pairwise callLt := by
  intro fuel
  induction fuel with
  | zero =>
    intro i
    show (([] : List DispatchCall)).Pairwise callLt
    exact List.Pairwise.nil
  | succ fuel ih =>
    intro i
    show ((if (p.fds i).revents = 0 then [] else [DispatchCall.conn i])
        ++ pollLoopTrace p (i + 1) fuel).Pairwise callLt
    by_cases hz : (p.fds i).revents = 0
    · rw [if_pos hz]
      simpa using ih (i + 1)
    · rw [if_neg hz]
      rw [List.singleton_append, List.pairwise_cons]
      refine ⟨?_, ih (i + 1)⟩
      intro c hc
      cases c with
      | listener => exact absurd hc (pollLoopTrace_listener p fuel (i + 1))
      | conn s =>
        have := (pollLoopTrace_mem p fuel (i + 1) s).mp hc
        show i < s
        omega

/-- C10 (implicit): in one successful dispatch iteration, the callback
sequence is duplicate-free and ordered by callLt - in particular the listener
callback runs at most once and before every connection callback, and the
connection callbacks run in increasing registry-slot order, each at most
once; the listener callback runs exactly when slot 0 observed an event, and
slot s's connection callback runs exactly when 1 ≤ s < polled and slot s's
observed mask is non-zero (a zero observed mask is skipped entirely). -/
theorem C10_dispatch_order (p : Pollfds) :
    (as_poll_trace p).Pairwise callLt ∧
    (as_poll_trace p).Nodup ∧
    (DispatchCall.listener ∈ as_poll_trace p ↔ (p.fds 0).revents ≠ 0) ∧
    (∀ s, DispatchCall.conn s ∈ as_poll_trace p ↔
      (1 ≤ s ∧ s < p.polled ∧ (p.fds s).revents ≠ 0)) := by
  have hmem := pollLoopTrace_mem p (p.polled - 1) 1
  have hpair : (as_poll_trace p).Pairwise callLt := by
    unfold as_poll_trace
    by_cases hz : (p.fds 0).revents ≠ 0
    · rw [if_pos hz, List.singleton_append, List.pairwise_cons]
      refine ⟨?_, pollLoopTrace_pairwise p (p.polled - 1) 1⟩
      intro c hc
      cases c with
      | listener => exact absurd hc (pollLoopTrace_listener p (p.polled - 1) 1)
      | conn s => trivial
    · rw [if_neg hz]
      simpa using pollLoopTrace_pairwise p (p.polled - 1) 1
  refine ⟨hpair, ?_, ?_, ?_⟩
  · refine hpair.imp ?_
    intro a b hab
    intro he
    subst he
    cases a with
    | listener => exact hab
    | conn s => exact Nat.lt_irrefl s hab
  · unfold as_poll_trace
    by_cases hz : (p.fds 0).revents ≠ 0
    · rw [if_pos hz]
      simp only [List.singleton_append, List.mem_cons]
      constructor
      · intro _; exact hz
      · intro _; exact Or.inl trivial
    · rw [if_neg hz]
      push_neg at hz
      simp only [List.nil_append]
      constructor
      · intro h
        exact absurd h (pollLoopTrace_listener p (p.polled - 1) 1)
      · intro h
        exact absurd hz h
  · intro s
    unfold as_poll_trace
    rw [List.mem_append]
    have hnl : DispatchCall.conn s ∉
        (if (p.fds 0).revents ≠ 0 then [DispatchCall.listener] else []) := by
      by_cases hz : (p.fds 0).revents ≠ 0
      · rw [if_pos hz]
        simp
      · rw [if_neg hz]
        simp
    constructor
    · rintro (h | h)
      · exact absurd h hnl
      · have := (pollLoopTrace_mem p (p.polled - 1) 1 s).mp h
        exact ⟨this.1, by omega, this.2.2⟩
    · rintro ⟨h1, h2, h3⟩
      right
      exact (pollLoopTrace_mem p (p.polled - 1) 1 s).mpr ⟨h1, by omega, h3⟩

theorem C10_dispatch_order_witness :
    (as_poll_trace (add_event (create_pollfds 4) 3 1).1).Pairwise callLt :=
  (C10_dispatch_order (add_event (create_pollfds 4) 3 1).1).1

end AsyncServer
